import Mathlib

/-!
Shallow embedding of the rss-tui aggregation-and-render core.

Text is modelled as `List Char`, matching the Rust code's systematic use of
`.chars()` pipelines; Rust byte lengths (`str::len`) are modelled by summing
UTF-8 sizes of the characters.  Machine integers (`i64` chat ids, `i32`
message ids) are modelled as `Int`: the code only compares and stores them,
so no wrap-around is observable.  Fallible rendering (Rust panics) is
modelled with `Option`.
-/

namespace RssTui

/-- Chars of a string literal, used to write `List Char` constants. -/
def lit (s : String) : List Char := s.data

/-- UTF-8 byte length of a character sequence (Rust `str::len`). -/
def byteLen (s : List Char) : Nat := (s.map Char.utf8Size).sum

/-- Rust `str::split(sep)` for a single-character separator: splits at every
occurrence, keeping empty tokens, and yields `[""]` on the empty string. -/
def splitOnChar (sep : Char) : List Char → List (List Char)
  | [] => [[]]
  | c :: rest =>
    if c = sep then [] :: splitOnChar sep rest
    else
      match splitOnChar sep rest with
      | [] => [[c]]
      | t :: ts => (c :: t) :: ts

/-- Rust `Vec::join(sep)`. -/
def joinWith (sep : List Char) : List (List Char) → List Char
  | [] => []
  | [x] => x
  | x :: y :: rest => x ++ sep ++ joinWith sep (y :: rest)

/-- One left-to-right, non-overlapping replacement pass for a non-empty
pattern `p :: ps` (the recursive core of Rust `str::replace`); `fuel`
bounds the scan and is always called with at least the string's length. -/
def replaceRec (p : Char) (ps rep : List Char) : Nat → List Char → List Char
  | 0, s => s
  | _ + 1, [] => []
  | fuel + 1, c :: rest =>
    if (p :: ps).isPrefixOf (c :: rest) then
      rep ++ replaceRec p ps rep fuel (rest.drop ps.length)
    else
      c :: replaceRec p ps rep fuel rest

/-- Rust `str::replace(pat, rep)` (all callers use non-empty patterns). -/
def replaceAll (pat rep s : List Char) : List Char :=
  match pat with
  | [] => s
  | p :: ps => replaceRec p ps rep s.length s

/-! ## Source Adapter (Feed): src/rss_funcs.rs, `get_feed` item mapping -/

/-- A fetched feed item: `(title, short_date, clean_desc)`. -/
abbrev FeedItem := List Char × List Char × List Char

/-- One feed category: the ordered items of one fetched channel. -/
abbrev Feed := List FeedItem

/-- `date.split(' ').skip(1).take(2).collect::<Vec<_>>().join(" ")`. -/
def shortDate (date : List Char) : List Char :=
  joinWith (lit " ") (((splitOnChar ' ' date).drop 1).take 2)

/-- The tag-stripping replacement chain applied to the decoded description. -/
def cleanDesc (s : List Char) : List Char :=
  replaceAll (lit "</strong>") []
    (replaceAll (lit "<strong>") []
      (replaceAll (lit "</em>") []
        (replaceAll (lit "<em>") []
          (replaceAll (lit "</br>") (lit "\n")
            (replaceAll (lit "<br>") (lit "\n")
              (replaceAll (lit "</p>") []
                (replaceAll (lit "<p>") [] s)))))))

/-- Per-item mapping of `get_feed`: title fallback, crude date truncation,
entity decoding (the external `html_escape` collaborator, passed in as
`decode`) followed by whitelist tag stripping. -/
def processItem (decode : List Char → List Char)
    (title pubDate descr : Option (List Char)) : FeedItem :=
  let t := match title with
    | some s => s
    | none => lit "No Title"
  let date := match pubDate with
    | some s => s
    | none => lit "N/A"
  let raw := match descr with
    | some s => s
    | none => lit "No description available."
  (t, shortDate date, cleanDesc (decode raw))

/-! ## Source Adapter (Chat): src/telegram_funcs.rs, `TelegramMonitor::monitor` -/

/-- Lookup in the `last_seen` map (`HashMap<i64, i32>::get`). -/
def mapGet (m : List (Int × Int)) (k : Int) : Option Int :=
  match m with
  | [] => none
  | (k1, v) :: rest => if k = k1 then some v else mapGet rest k

/-- Insert into the `last_seen` map (`HashMap<i64, i32>::insert`). -/
def mapInsert (m : List (Int × Int)) (k v : Int) : List (Int × Int) :=
  match m with
  | [] => [(k, v)]
  | (k1, v1) :: rest =>
    if k = k1 then (k, v) :: rest else (k1, v1) :: mapInsert rest k v

/-- One polled dialog: peer chat id, optional peer display name, and the
optional last message as `(message id, text)`. -/
structure Dialog where
  chatId : Int
  peerName : Option (List Char)
  lastMessage : Option (Int × List Char)
deriving DecidableEq

/-- `peer.name().map(to_owned).unwrap_or("Unknown")`. -/
def senderName (d : Dialog) : List Char :=
  match d.peerName with
  | some s => s
  | none => lit "Unknown"

/-- `msg.text().replace('\n', " ")`. -/
def cleanText (s : List Char) : List Char :=
  s.map (fun c => if c = '\n' then ' ' else c)

/-- The body of `monitor`'s per-dialog loop: target filter, dedup check
against `last_seen`, cursor insert, and the forwarded `(sender, text)`
pair (`none` when nothing is sent to the channel). -/
def monitorStep (targets : List Int) (st : List (Int × Int)) (d : Dialog) :
    List (Int × Int) × Option (List Char × List Char) :=
  if targets.contains d.chatId then
    match d.lastMessage with
    | some (msgId, text) =>
      match mapGet st d.chatId with
      | some prev =>
        if msgId ≤ prev then (st, none)
        else (mapInsert st d.chatId msgId, some (senderName d, cleanText text))
      | none => (mapInsert st d.chatId msgId, some (senderName d, cleanText text))
    | none => (st, none)
  else (st, none)

/-- One polling pass over the fetched dialog list, accumulating the
messages forwarded to the UI channel in order. -/
def monitorPoll (targets : List Int) (st : List (Int × Int))
    (ds : List Dialog) : List (Int × Int) × List (List Char × List Char) :=
  ds.foldl
    (fun acc d =>
      let r := monitorStep targets acc.1 d
      (r.1, acc.2 ++ r.2.toList))
    (st, [])

/-- A run of `monitor`: one polling pass per 2-second wakeup. -/
def monitorRun (targets : List Int) (st : List (Int × Int))
    (polls : List (List Dialog)) :
    List (Int × Int) × List (List Char × List Char) :=
  polls.foldl
    (fun acc ds =>
      let r := monitorPoll targets acc.1 ds
      (r.1, acc.2 ++ r.2))
    (st, [])

/-! ## Chat table: src/main.rs, `telegram_messages : BTreeMap<String, String>` -/

/-- The chat table as a key-sorted association list, the iteration-ordered
view of the `BTreeMap`. -/
abbrev ChatTable := List (List Char × List Char)

/-- `BTreeMap::insert`: keeps keys sorted, overwrites an existing key. -/
def tableInsert (t : ChatTable) (k v : List Char) : ChatTable :=
  match t with
  | [] => [(k, v)]
  | (k1, v1) :: rest =>
    if k < k1 then (k, v) :: (k1, v1) :: rest
    else if k = k1 then (k, v) :: rest
    else (k1, v1) :: tableInsert rest k v

/-- `BTreeMap::get`. -/
def tableLookup (t : ChatTable) (k : List Char) : Option (List Char) :=
  match t with
  | [] => none
  | (k1, v) :: rest => if k = k1 then some v else tableLookup rest k

/-- The displayed entries: `telegram_messages.iter().rev().take(20)`. -/
def displayEntries (t : ChatTable) : ChatTable :=
  t.reverse.take 20

/-- The `BTreeMap` representation invariant: strictly ascending keys. -/
def sortedTable (t : ChatTable) : Prop :=
  t.Pairwise (fun a b => a.1 < b.1)

/-! ## Layout Engine: src/main.rs, `render_rss_block` -/

/-- The marker glyph prefix `"◆ "`. -/
def marker : List Char := lit "◆ "

/-- The ellipsis appended to truncated titles. -/
def dots : List Char := lit "..."

/-- The rendered tag: `format!(" [{}]", t)`, or empty without a tag. -/
def tagText : Option (List Char) → List Char
  | some t => lit " [" ++ t ++ lit "]"
  | none => []

/-- The placeholder shown while a feed slot is empty. -/
def fetchingLine : List Char := lit "   Fetching data..."

/-- The inter-item divider: `"─".repeat(inner_width)`. -/
def sepLine (inner : Nat) : List Char := List.replicate inner '─'

/-- The single-line item header: marker, possibly truncated title, alignment
padding, 10-char date, tag.  Mirrors the arithmetic of the source: the date
is measured in bytes (`date_str.len()`), everything else in chars, and all
subtractions saturate. -/
def headerLine (inner : Nat) (titleText dateRaw tagStr : List Char) :
    List Char :=
  let dateStr := dateRaw.take 10
  let maxTitleLen := inner - (byteLen dateStr + tagStr.length + marker.length + 2)
  let truncatedTitle :=
    if titleText.length > maxTitleLen then
      titleText.take (maxTitleLen - 3) ++ dots
    else titleText
  let contentLen :=
    marker.length + truncatedTitle.length + byteLen dateStr + tagStr.length + 1
  let padding := List.replicate (inner - contentLen) ' '
  marker ++ truncatedTitle ++ padding ++ dateStr ++ tagStr

/-- Rust `slice::chunks(n + 1)`; `fuel` bounds the scan and is always
called with at least the string's length. -/
def chunkGo (n : Nat) : Nat → List Char → List (List Char)
  | _, [] => []
  | 0, _ :: _ => []
  | fuel + 1, c :: rest => (c :: rest.take n) :: chunkGo n fuel (rest.drop n)

/-- Rust `slice::chunks(n)`: panics (`none`) when `n = 0`. -/
def chunksOf (n : Nat) (s : List Char) : Option (List (List Char)) :=
  match n with
  | 0 => none
  | m + 1 => some (chunkGo m s.length s)

/-- The lines of one rendered feed item: header, then up to two fixed-width
chunks of the newline-flattened description. -/
def itemLines (inner : Nat) (it : FeedItem) (tagStr : List Char) :
    Option (List (List Char)) :=
  let cleanedDesc := it.2.2.map (fun c => if c = '\n' then ' ' else c)
  match chunksOf inner cleanedDesc with
  | none => none
  | some cs => some (headerLine inner it.1 it.2.1 tagStr :: cs.take 2)

/-- The item indices visited by the render loop: `(offset + i) % feed_length`
for `i` in `0..count`. -/
def windowIndices (off n k : Nat) : List Nat :=
  (List.range k).map (fun i => (off + i) % n)

/-- The render loop over the selected indices, interleaving the divider
after every item but the last. -/
def blockGo (feed : Feed) (inner : Nat) (tagStr : List Char) :
    List Nat → Option (List (List (List Char)))
  | [] => some []
  | [j] =>
    match itemLines inner (feed.getD j ([], [], [])) tagStr with
    | none => none
    | some ls => some [ls]
  | j :: j2 :: rest =>
    match itemLines inner (feed.getD j ([], [], [])) tagStr,
        blockGo feed inner tagStr (j2 :: rest) with
    | some ls, some items => some (ls :: [sepLine inner] :: items)
    | _, _ => none

/-- `render_rss_block`, reduced to the list items it builds: checked feed
lookup, empty-feed placeholder, and the rotating window render.  `none`
models a panic. -/
def renderBlockItems (feeds : List Feed) (off idx inner count : Nat)
    (tagInfo : Option (List Char)) : Option (List (List (List Char))) :=
  match feeds[idx]? with
  | none => some []
  | some feed =>
    if feed.isEmpty then some [[fetchingLine]]
    else blockGo feed inner (tagText tagInfo) (windowIndices off feed.length count)

/-! ## Aggregator: src/main.rs, `main` loop state and feed drain -/

/-- The dashboard state owned by the render loop. -/
structure AppState where
  rssFeeds : List Feed
  offset : Nat
  telegramMessages : ChatTable

/-- Applying one received feed batch: wholesale replacement plus offset
reset (`app.rss_feeds = new_feeds; app.offset = 0`). -/
def applyBatch (st : AppState) (batch : List Feed) : AppState :=
  { st with rssFeeds := batch, offset := 0 }

/-- The `while let Ok(new_feeds) = app.rx.try_recv()` drain over the queued
batches, in arrival order. -/
def drainFeeds (st : AppState) (pending : List (List Feed)) : AppState :=
  pending.foldl applyBatch st

/-- `App::on_tick`. -/
def onTick (st : AppState) : AppState :=
  { st with offset := st.offset + 1 }

/-! ## Batch fetch: src/main.rs, `App::fetch_rss` spawned task -/

/-- The spawned fetch task: one result pushed per url, in url order, an
empty vector standing in for a failed fetch (`result` is the external
network collaborator). -/
def fetchAll (result : List Char → Option Feed) (urls : List (List Char)) :
    List Feed :=
  urls.map (fun u =>
    match result u with
    | some items => items
    | none => [])

/-- Scheduling events of the fetch task, indexed by url position. -/
inductive FetchEvent where
  | start (i : Nat)
  | finish (i : Nat)
deriving DecidableEq

/-- The event trace of the fetch task's loop body: each `get_feed(url)` is
awaited to completion before the next url's fetch begins. -/
def fetchTrace (n : Nat) : List FetchEvent :=
  (List.range n).foldr
    (fun i acc => FetchEvent.start i :: FetchEvent.finish i :: acc) []

/-- Position of the start of fetch `i` in a trace. -/
def startPos (tr : List FetchEvent) (i : Nat) : Nat :=
  tr.indexOf (FetchEvent.start i)

/-- Position of the completion of fetch `i` in a trace. -/
def finPos (tr : List FetchEvent) (i : Nat) : Nat :=
  tr.indexOf (FetchEvent.finish i)

/-- Fetches `i` and `j` overlap in a trace: each one starts before the
other completes (what truly concurrent fetching would exhibit). -/
def overlapIn (tr : List FetchEvent) (i j : Nat) : Prop :=
  startPos tr j < finPos tr i ∧ startPos tr i < finPos tr j

/-! ## Helper lemmas: the dedup map and the monitor state -/

theorem mapGet_mapInsert (m : List (Int × Int)) (k v c : Int) :
    mapGet (mapInsert m k v) c = if c = k then some v else mapGet m c := by
  induction m with
  | nil =>
    by_cases h : c = k <;> simp [mapInsert, mapGet, h]
  | cons hd tl ih =>
    obtain ⟨k1, v1⟩ := hd
    simp only [mapInsert]
    by_cases hk : k = k1
    · subst hk
      by_cases hc : c = k <;> simp [mapGet, hc]
    · simp only [if_neg hk]
      by_cases hc1 : c = k1
      · have hck : ¬ c = k := fun hh => hk (hh.symm.trans hc1)
        have hk1 : ¬ k1 = k := fun hh => hk hh.symm
        simp [mapGet, hc1, hck, hk1]
      · simp [mapGet, hc1, ih]

theorem monitorStep_cursor_mono (targets : List Int) (st : List (Int × Int))
    (d : Dialog) (c v : Int) (h : mapGet st c = some v) :
    ∃ w, mapGet (monitorStep targets st d).1 c = some w ∧ v ≤ w := by
  unfold monitorStep
  by_cases hT : targets.contains d.chatId
  · simp only [hT, if_true]
    match hm : d.lastMessage with
    | none => exact ⟨v, h, le_refl v⟩
    | some (msgId, text) =>
      match hp : mapGet st d.chatId with
      | some prev =>
        by_cases hle : msgId ≤ prev
        · simp only [hle, if_true]
          exact ⟨v, h, le_refl v⟩
        · simp only [hle, if_false]
          by_cases hc : c = d.chatId
          · subst hc
            refine ⟨msgId, ?_, ?_⟩
            · simp [mapGet_mapInsert]
            · have hvp : v = prev := by
                rw [h] at hp
                exact Option.some.inj hp
              omega
          · exact ⟨v, by simp [mapGet_mapInsert, hc, h], le_refl v⟩
      | none =>
        by_cases hc : c = d.chatId
        · subst hc
          rw [h] at hp
          exact absurd hp (by simp)
        · exact ⟨v, by simp [mapGet_mapInsert, hc, h], le_refl v⟩
  · simp only [hT, if_false]
    exact ⟨v, h, le_refl v⟩

theorem monitorPoll_fst (targets : List Int) (st : List (Int × Int))
    (out : List (List Char × List Char)) (ds : List Dialog) :
    (ds.foldl
      (fun acc d =>
        let r := monitorStep targets acc.1 d
        (r.1, acc.2 ++ r.2.toList))
      (st, out)).1
    = ds.foldl (fun s d => (monitorStep targets s d).1) st := by
  induction ds generalizing st out with
  | nil => rfl
  | cons hd tl ih => simpa using ih (monitorStep targets st hd).1 _

theorem foldSteps_cursor_mono (targets : List Int) (ds : List Dialog)
    (st : List (Int × Int)) (c v : Int) (h : mapGet st c = some v) :
    ∃ w, mapGet (ds.foldl (fun s d => (monitorStep targets s d).1) st) c = some w
      ∧ v ≤ w := by
  induction ds generalizing st v with
  | nil => exact ⟨v, h, le_refl v⟩
  | cons hd tl ih =>
    obtain ⟨w1, hw1, hvw1⟩ := monitorStep_cursor_mono targets st hd c v h
    obtain ⟨w2, hw2, hw12⟩ := ih _ _ hw1
    exact ⟨w2, by simpa using hw2, le_trans hvw1 hw12⟩

theorem monitorRun_fst (targets : List Int) (st : List (Int × Int))
    (out : List (List Char × List Char)) (polls : List (List Dialog)) :
    (polls.foldl
      (fun acc ds =>
        let r := monitorPoll targets acc.1 ds
        (r.1, acc.2 ++ r.2))
      (st, out)).1
    = polls.foldl (fun s ds => (monitorPoll targets s ds).1) st := by
  induction polls generalizing st out with
  | nil => rfl
  | cons hd tl ih => simpa using ih (monitorPoll targets st hd).1 _

theorem monitorRun_cursor_mono (targets : List Int) (polls : List (List Dialog))
    (st : List (Int × Int)) (c v : Int) (h : mapGet st c = some v) :
    ∃ w, mapGet (monitorRun targets st polls).1 c = some w ∧ v ≤ w := by
  unfold monitorRun
  rw [monitorRun_fst]
  induction polls generalizing st v with
  | nil => exact ⟨v, h, le_refl v⟩
  | cons hd tl ih =>
    have h1 : (monitorPoll targets st hd).1
        = hd.foldl (fun s d => (monitorStep targets s d).1) st := by
      unfold monitorPoll
      exact monitorPoll_fst targets st [] hd
    obtain ⟨w1, hw1, hvw1⟩ := foldSteps_cursor_mono targets hd st c v h
    rw [← h1] at hw1
    obtain ⟨w2, hw2, hw12⟩ := ih _ _ hw1
    exact ⟨w2, by simpa using hw2, le_trans hvw1 hw12⟩

/-! ## Claim C1 and C9: dedup cursor behaviour of the chat monitor -/

/-- Claim C1: over a run of `monitor`, the dedup cursor stored in the
`last_seen` map is monotonically non-decreasing per conversation; a polled
last-message of a target conversation is forwarded to the sink iff its id
strictly exceeds the stored cursor (when one exists), the cursor is then
advanced to that id, and a message whose id is at most the stored cursor is
never forwarded and leaves the map unchanged. -/
theorem dedup_cursor_monotone_forward_iff
    (targets : List Int) (st : List (Int × Int)) (d : Dialog) (m : Int)
    (x : List Char) (hT : targets.contains d.chatId = true)
    (hm : d.lastMessage = some (m, x)) :
    ((monitorStep targets st d).2.isSome = true ↔
      ∀ prev, mapGet st d.chatId = some prev → prev < m)
    ∧ ((monitorStep targets st d).2.isSome = true →
        mapGet (monitorStep targets st d).1 d.chatId = some m)
    ∧ (∀ prev, mapGet st d.chatId = some prev → m ≤ prev →
        (monitorStep targets st d).1 = st ∧ (monitorStep targets st d).2 = none)
    ∧ (∀ polls c v, mapGet st c = some v →
        ∃ w, mapGet (monitorRun targets st polls).1 c = some w ∧ v ≤ w) := by
  have hT2 : d.chatId ∈ targets := by simpa using hT
  have h4 : ∀ polls c v, mapGet st c = some v →
      ∃ w, mapGet (monitorRun targets st polls).1 c = some w ∧ v ≤ w :=
    fun polls c v h => monitorRun_cursor_mono targets polls st c v h
  cases hp : mapGet st d.chatId with
  | none =>
    have hstep : monitorStep targets st d
        = (mapInsert st d.chatId m, some (senderName d, cleanText x)) := by
      simp [monitorStep, hT2, hm, hp]
    refine ⟨?_, ?_, ?_, h4⟩
    · rw [hstep]
      simp only [Option.isSome_some, true_iff]
      intro prev hprev
      exact absurd hprev (by simp)
    · intro _
      rw [hstep]
      simp [mapGet_mapInsert]
    · intro prev hprev
      exact absurd hprev (by simp)
  | some prev =>
    by_cases hle : m ≤ prev
    · have hstep : monitorStep targets st d = (st, none) := by
        simp [monitorStep, hT2, hm, hp, hle]
      refine ⟨?_, ?_, ?_, h4⟩
      · rw [hstep]
        simp only [Option.isSome_none, Bool.false_eq_true, false_iff]
        intro hAll
        have hcontra := hAll prev rfl
        omega
      · rw [hstep]
        intro hcontra
        simp at hcontra
      · intro prev0 hprev0 hle0
        rw [hstep]
        exact ⟨rfl, rfl⟩
    · have hstep : monitorStep targets st d
          = (mapInsert st d.chatId m, some (senderName d, cleanText x)) := by
        simp [monitorStep, hT2, hm, hp, hle]
      refine ⟨?_, ?_, ?_, h4⟩
      · rw [hstep]
        simp only [Option.isSome_some, true_iff]
        intro prev0 hprev0
        have hpe : prev = prev0 := Option.some.inj hprev0
        omega
      · intro _
        rw [hstep]
        simp [mapGet_mapInsert]
      · intro prev0 hprev0 hle0
        have hpe : prev = prev0 := Option.some.inj hprev0
        omega

/-- Witness for C1: a target conversation with cursor 10 receives message
id 11; it is forwarded and the cursor advances to 11. -/
theorem dedup_cursor_monotone_forward_iff_witness :
    mapGet (monitorStep [5] [(5, 10)]
      ⟨5, some (lit "bob"), some (11, lit "hi")⟩).1 5 = some 11 := by
  have h := dedup_cursor_monotone_forward_iff [5] [(5, 10)]
    ⟨5, some (lit "bob"), some (11, lit "hi")⟩ 11 (lit "hi") (by decide) rfl
  exact h.2.1 (by decide)

/-- Claim C9: for a target conversation with no stored cursor, the first
observed last-message is always forwarded, whatever its id (zero and
negative included), and the cursor is initialized to that id. -/
theorem first_poll_forwarded_any_id
    (targets : List Int) (st : List (Int × Int)) (d : Dialog) (m : Int)
    (x : List Char) (hT : targets.contains d.chatId = true)
    (hm : d.lastMessage = some (m, x)) (h0 : mapGet st d.chatId = none) :
    (monitorStep targets st d).2 = some (senderName d, cleanText x)
    ∧ mapGet (monitorStep targets st d).1 d.chatId = some m := by
  have hT2 : d.chatId ∈ targets := by simpa using hT
  have hstep : monitorStep targets st d
      = (mapInsert st d.chatId m, some (senderName d, cleanText x)) := by
    simp [monitorStep, hT2, hm, h0]
  rw [hstep]
  exact ⟨rfl, by simp [mapGet_mapInsert]⟩

/-- Witness for C9: a first message with the negative id -3 is forwarded
and becomes the cursor. -/
theorem first_poll_forwarded_any_id_witness :
    (monitorStep [7] [] ⟨7, none, some (-3, lit "yo")⟩).2
      = some (lit "Unknown", lit "yo")
    ∧ mapGet (monitorStep [7] [] ⟨7, none, some (-3, lit "yo")⟩).1 7
      = some (-3) :=
  first_poll_forwarded_any_id [7] [] ⟨7, none, some (-3, lit "yo")⟩ (-3)
    (lit "yo") (by decide) rfl rfl

/-! ## Claim C2: the chat table and its displayed order -/

theorem tableLookup_tableInsert_self (t : ChatTable) (k v : List Char) :
    tableLookup (tableInsert t k v) k = some v := by
  induction t with
  | nil => simp [tableInsert, tableLookup]
  | cons hd tl ih =>
    obtain ⟨k1, v1⟩ := hd
    simp only [tableInsert]
    by_cases hlt : k < k1
    · simp [hlt, tableLookup]
    · by_cases heq : k = k1
      · simp [hlt, heq, tableLookup]
      · simp [hlt, heq, tableLookup, ih]

theorem tableInsert_keys_of_mem (t : ChatTable) (k v : List Char)
    (hs : sortedTable t) (hmem : k ∈ t.map Prod.fst) :
    (tableInsert t k v).map Prod.fst = t.map Prod.fst := by
  induction t with
  | nil => simp at hmem
  | cons hd tl ih =>
    obtain ⟨k1, v1⟩ := hd
    rw [sortedTable, List.pairwise_cons] at hs
    obtain ⟨hall, hs2⟩ := hs
    simp only [List.map_cons, List.mem_cons] at hmem
    simp only [tableInsert]
    by_cases hlt : k < k1
    · exfalso
      rcases hmem with heq | hmem2
      · exact absurd hlt (by rw [heq]; exact lt_irrefl k1)
      · obtain ⟨a, ha, hak⟩ := List.mem_map.mp hmem2
        have h1 : k1 < a.1 := hall a ha
        rw [hak] at h1
        exact absurd hlt (not_lt.mpr (le_of_lt h1))
    · by_cases heq : k = k1
      · simp [hlt, heq]
      · have hmem2 : k ∈ tl.map Prod.fst := by
          rcases hmem with h | h
          · exact absurd h heq
          · exact h
        simp [hlt, heq, ih hs2 hmem2]

/-- Counterexample to C2: after receiving ("alice","hi"), ("bob","yo"),
("alice","bye"), the displayed iteration order is bob then alice
(descending key order over `.iter().rev()`), not alice then bob. -/
theorem chat_display_order_counterexample :
    (displayEntries (tableInsert (tableInsert (tableInsert []
        (lit "alice") (lit "hi")) (lit "bob") (lit "yo"))
        (lit "alice") (lit "bye"))).map Prod.fst
      = [lit "bob", lit "alice"]
    ∧ ¬ ((displayEntries (tableInsert (tableInsert (tableInsert []
        (lit "alice") (lit "hi")) (lit "bob") (lit "yo"))
        (lit "alice") (lit "bye"))).map Prod.fst
      = [lit "alice", lit "bob"]) := by
  constructor
  · decide
  · decide

/-- Claim C2 (amended): the chat table maps each sender to that sender's
most recent message only — inserting an existing sender key overwrites the
prior entry and, on a sorted table, adds no key — and the underlying table
iterates in ascending key order, but the display iterates it in reverse
(descending key) order: after the three-message scenario the table has
exactly the keys alice, bob (in that underlying order), alice maps to
"bye", and the displayed iteration order is bob then alice. -/
theorem chat_table_last_write_wins_display_reversed
    (t : ChatTable) (k v : List Char) (hs : sortedTable t) :
    ((tableInsert (tableInsert (tableInsert []
        (lit "alice") (lit "hi")) (lit "bob") (lit "yo"))
        (lit "alice") (lit "bye")).map Prod.fst = [lit "alice", lit "bob"]
      ∧ tableLookup (tableInsert (tableInsert (tableInsert []
          (lit "alice") (lit "hi")) (lit "bob") (lit "yo"))
          (lit "alice") (lit "bye")) (lit "alice") = some (lit "bye")
      ∧ (displayEntries (tableInsert (tableInsert (tableInsert []
          (lit "alice") (lit "hi")) (lit "bob") (lit "yo"))
          (lit "alice") (lit "bye"))).map Prod.fst = [lit "bob", lit "alice"])
    ∧ tableLookup (tableInsert t k v) k = some v
    ∧ (k ∈ t.map Prod.fst →
        (tableInsert t k v).map Prod.fst = t.map Prod.fst) := by
  refine ⟨⟨by decide, by decide, by decide⟩, tableLookup_tableInsert_self t k v,
    fun hmem => tableInsert_keys_of_mem t k v hs hmem⟩

/-- Witness for the amended C2 on a concrete sorted one-entry table. -/
theorem chat_table_last_write_wins_display_reversed_witness :
    tableLookup (tableInsert [(lit "bob", lit "yo")] (lit "bob") (lit "hi"))
      (lit "bob") = some (lit "hi")
    ∧ (tableInsert [(lit "bob", lit "yo")] (lit "bob") (lit "hi")).map Prod.fst
      = [(lit "bob", lit "yo")].map Prod.fst := by
  have h := chat_table_last_write_wins_display_reversed
    [(lit "bob", lit "yo")] (lit "bob") (lit "hi")
    (by simp [sortedTable])
  exact ⟨h.2.1, h.2.2 (by decide)⟩

/-! ## Claim C6: the feed-batch drain -/

/-- Claim C6: one loop iteration drains every pending feed batch in arrival
order; each drained batch wholesale-replaces the stored feed set and resets
the rotation offset to 0, so after a non-empty drain the state holds
exactly the last batch with offset 0; draining feed batches leaves the
chat-message table unchanged. -/
theorem drain_feeds_replaces_and_preserves_chat
    (st : AppState) (pending : List (List Feed)) :
    (∀ b, pending.getLast? = some b →
      drainFeeds st pending
        = { rssFeeds := b, offset := 0,
            telegramMessages := st.telegramMessages })
    ∧ (drainFeeds st pending).telegramMessages = st.telegramMessages := by
  induction pending generalizing st with
  | nil =>
    refine ⟨fun b h => ?_, rfl⟩
    simp at h
  | cons hd tl ih =>
    refine ⟨fun b h => ?_, ?_⟩
    · cases tl with
      | nil =>
        rw [List.getLast?_singleton] at h
        have hb := Option.some.inj h
        subst hb
        rfl
      | cons hd2 tl2 =>
        have h2 : (hd2 :: tl2).getLast? = some b := by
          simpa [List.getLast?_cons_cons] using h
        have h3 := (ih (applyBatch st hd)).1 b h2
        simpa [drainFeeds, applyBatch] using h3
    · have h3 := (ih (applyBatch st hd)).2
      simpa [drainFeeds, applyBatch] using h3

/-- Witness for C6: draining two queued batches keeps the last one, resets
the offset, and leaves the chat table alone. -/
theorem drain_feeds_replaces_and_preserves_chat_witness :
    drainFeeds ⟨[], 3, [(lit "k", lit "m")]⟩
      [[], [[(lit "t", lit "d", lit "x")]]]
      = ⟨[[(lit "t", lit "d", lit "x")]], 0, [(lit "k", lit "m")]⟩ :=
  (drain_feeds_replaces_and_preserves_chat ⟨[], 3, [(lit "k", lit "m")]⟩
    [[], [[(lit "t", lit "d", lit "x")]]]).1
    [[(lit "t", lit "d", lit "x")]] rfl

/-! ## Claim C5: the batch fetch -/

theorem fetchTrace_succ (n : Nat) :
    fetchTrace (n + 1)
      = fetchTrace n ++ [FetchEvent.start n, FetchEvent.finish n] := by
  have haux : ∀ (l : List Nat) (B : List FetchEvent),
      l.foldr (fun i acc => FetchEvent.start i :: FetchEvent.finish i :: acc) B
      = l.foldr (fun i acc => FetchEvent.start i :: FetchEvent.finish i :: acc)
          [] ++ B := by
    intro l
    induction l with
    | nil => intro B; rfl
    | cons hd tl ih =>
      intro B
      rw [List.foldr_cons, List.foldr_cons, ih, List.cons_append,
        List.cons_append]
  unfold fetchTrace
  rw [List.range_succ, List.foldr_append]
  simpa using haux (List.range n) [FetchEvent.start n, FetchEvent.finish n]

theorem fetchTrace_length (n : Nat) : (fetchTrace n).length = 2 * n := by
  induction n with
  | zero => rfl
  | succ m ih =>
    rw [fetchTrace_succ, List.length_append, ih]
    simp
    omega

theorem fetchTrace_positions (n j : Nat) (h : j < n) :
    (fetchTrace n)[2 * j]? = some (FetchEvent.start j)
    ∧ (fetchTrace n)[2 * j + 1]? = some (FetchEvent.finish j) := by
  induction n with
  | zero => omega
  | succ m ih =>
    rw [fetchTrace_succ]
    by_cases hj : j < m
    · have h1 := (ih hj).1
      have h2 := (ih hj).2
      have hlen : 2 * j + 1 < (fetchTrace m).length := by
        rw [fetchTrace_length]
        omega
      constructor
      · rw [List.getElem?_append_left (by omega)]
        exact h1
      · rw [List.getElem?_append_left hlen]
        exact h2
    · have hjm : j = m := by omega
      subst hjm
      have hlen : (fetchTrace j).length = 2 * j := fetchTrace_length j
      constructor
      · rw [List.getElem?_append_right (by omega)]
        simp [hlen]
      · rw [List.getElem?_append_right (by omega)]
        simp [hlen]

/-- Counterexample to C5: in the fetch task's event trace for two urls, the
second fetch starts strictly after the first completes — the per-url
fetches do not overlap, so they are not performed concurrently. -/
theorem fetch_not_concurrent_counterexample :
    fetchTrace 2 = [FetchEvent.start 0, FetchEvent.finish 0,
      FetchEvent.start 1, FetchEvent.finish 1]
    ∧ finPos (fetchTrace 2) 0 < startPos (fetchTrace 2) 1
    ∧ ¬ overlapIn (fetchTrace 2) 0 1 := by
  refine ⟨by decide, by decide, ?_⟩
  simp only [overlapIn, not_and]
  decide

/-- Claim C5 (amended): the batch fetch yields exactly one per-category
result per input url, in input order, whatever fetches fail; a failure on
one url yields an empty sequence at that position only; and the per-url
fetches run sequentially in input order — each fetch's start and finish
occupy adjacent trace positions, each fetch finishing before the next
starts. -/
theorem fetch_batch_order_isolation_sequential
    (result : List Char → Option Feed) (urls : List (List Char)) (i : Nat)
    (u : List Char) (hu : urls[i]? = some u) :
    (fetchAll result urls).length = urls.length
    ∧ (∀ items, result u = some items → (fetchAll result urls)[i]? = some items)
    ∧ (result u = none → (fetchAll result urls)[i]? = some [])
    ∧ (∀ n j, j < n → (fetchTrace n)[2 * j]? = some (FetchEvent.start j)
        ∧ (fetchTrace n)[2 * j + 1]? = some (FetchEvent.finish j)
        ∧ (fetchTrace n).length = 2 * n) := by
  refine ⟨List.length_map urls _, fun items hres => ?_, fun hres => ?_,
    fun n j hjn => ⟨(fetchTrace_positions n j hjn).1,
      (fetchTrace_positions n j hjn).2, fetchTrace_length n⟩⟩
  · unfold fetchAll
    rw [List.getElem?_map, hu]
    simp [hres]
  · unfold fetchAll
    rw [List.getElem?_map, hu]
    simp [hres]

/-- Witness for the amended C5: one succeeding and one failing url. -/
theorem fetch_batch_order_isolation_sequential_witness :
    (fetchAll (fun u => if u = lit "ok" then some [(lit "t", lit "d", lit "x")]
        else none) [lit "ok", lit "bad"]).length = 2
    ∧ (fetchAll (fun u => if u = lit "ok" then some [(lit "t", lit "d", lit "x")]
        else none) [lit "ok", lit "bad"])[1]? = some [] := by
  have h := fetch_batch_order_isolation_sequential
    (fun u => if u = lit "ok" then some [(lit "t", lit "d", lit "x")] else none)
    [lit "ok", lit "bad"] 1 (lit "bad") rfl
  exact ⟨h.1, h.2.2.1 (by decide)⟩

/-! ## Claim C3: header truncation and width -/

/-- Counterexample to C3: a 40-char title in a 30-wide column with an
ASCII date and no tag renders a header of character width 29, not the
claimed inner width 30 (the `+ 1` in the content length always leaves one
column unused). -/
theorem header_width_counterexample :
    (headerLine 30 (List.replicate 40 'a') (lit "12 Oct 2025 07:00") []).length
      = 29
    ∧ (headerLine 30 (List.replicate 40 'a')
        (lit "12 Oct 2025 07:00") []).length ≠ 30 := by
  constructor
  · decide
  · decide

/-- Claim C3 (amended): when the date display is ASCII (bytes = chars) and
the computed maximum title length is at least 3, an overlong title is cut
to that maximum minus 3 characters with "..." appended — a character-level
cut that cannot split a multi-byte character — the alignment padding is
then exactly one space, and the header's total character width is exactly
the inner width minus one (one column is always left unused). -/
theorem header_truncation_width_amended
    (inner : Nat) (titleText dateRaw tagStr : List Char)
    (hA : byteLen (dateRaw.take 10) = (dateRaw.take 10).length)
    (hM : 3 ≤ inner
      - (byteLen (dateRaw.take 10) + tagStr.length + marker.length + 2)) :
    (headerLine inner titleText dateRaw tagStr).length = inner - 1
    ∧ (titleText.length > inner
        - (byteLen (dateRaw.take 10) + tagStr.length + marker.length + 2) →
      ∃ padN, headerLine inner titleText dateRaw tagStr
          = marker ++ (titleText.take (inner
              - (byteLen (dateRaw.take 10) + tagStr.length + marker.length + 2)
              - 3) ++ dots)
            ++ List.replicate padN ' ' ++ dateRaw.take 10 ++ tagStr
        ∧ padN = 1) := by
  have hm2 : marker.length = 2 := rfl
  have hd3 : dots.length = 3 := rfl
  have hA2 := hA
  simp only [List.length_take] at hA2
  have hM2 := hM
  simp only [hm2] at hM2
  constructor
  · simp only [headerLine]
    split_ifs with htr
    · have htr2 := htr
      simp only [hm2] at htr2
      simp only [List.length_append, List.length_replicate, List.length_take,
        hd3, hm2]
      omega
    · have htr2 := htr
      simp only [not_lt, hm2] at htr2
      simp only [List.length_append, List.length_replicate, List.length_take,
        hm2]
      omega
  · intro htr
    have htr2 := htr
    simp only [hm2] at htr2
    simp only [headerLine]
    rw [if_pos htr]
    refine ⟨_, rfl, ?_⟩
    simp only [List.length_append, List.length_take, hd3, hm2]
    omega

/-- Witness for the amended C3 with a tag and a 3-char title budget. -/
theorem header_truncation_width_amended_witness :
    (headerLine 25 (List.replicate 30 'b') (lit "13 Oct 2025 08:00")
      (lit " [World]")).length = 25 - 1 :=
  (header_truncation_width_amended 25 (List.replicate 30 'b')
    (lit "13 Oct 2025 08:00") (lit " [World]") (by decide) (by decide)).1

/-! ## Claim C4: the rotating visible window -/

/-- Claim C4: for a feed of length N > 0 and a visible window of size K
with 0 < K ≤ N, the indices rendered at offset o are exactly the set
of values (o+i) mod N for i < K, pairwise distinct; incrementing o cycles
the window through every one of the N items within N steps, and the window
repeats with period N. -/
theorem rotation_window_cycles (o N K : Nat) (hN : 0 < N) (hK : 0 < K)
    (hKN : K ≤ N) :
    (∀ j, j ∈ windowIndices o N K ↔ ∃ i, i < K ∧ j = (o + i) % N)
    ∧ (windowIndices o N K).Nodup
    ∧ (∀ j, j < N → ∃ d, d < N ∧ j ∈ windowIndices (o + d) N K)
    ∧ windowIndices (o + N) N K = windowIndices o N K := by
  refine ⟨?_, ?_, ?_, ?_⟩
  · intro j
    simp only [windowIndices, List.mem_map, List.mem_range]
    constructor
    · rintro ⟨i, h1, h2⟩
      exact ⟨i, h1, h2.symm⟩
    · rintro ⟨i, h1, h2⟩
      exact ⟨i, h1, h2.symm⟩
  · have hinj : ∀ i ∈ List.range K, ∀ j ∈ List.range K,
        (o + i) % N = (o + j) % N → i = j := by
      intro i hi j hj h
      rw [List.mem_range] at hi hj
      have hij : Nat.ModEq N i j := Nat.ModEq.add_left_cancel' o h
      rcases le_total i j with hle | hle
      · have hdvd := (Nat.modEq_iff_dvd' hle).mp hij
        have hz : j - i = 0 := by
          rcases Nat.eq_zero_or_pos (j - i) with h0 | hpos
          · exact h0
          · exact absurd (Nat.le_of_dvd hpos hdvd) (by omega)
        omega
      · have hdvd := (Nat.modEq_iff_dvd' hle).mp hij.symm
        have hz : i - j = 0 := by
          rcases Nat.eq_zero_or_pos (i - j) with h0 | hpos
          · exact h0
          · exact absurd (Nat.le_of_dvd hpos hdvd) (by omega)
        omega
    exact (List.nodup_range K).map_on hinj
  · intro j hj
    have hr : o % N < N := Nat.mod_lt o hN
    have hmem : 0 ∈ List.range K := List.mem_range.mpr hK
    by_cases hcase : o % N ≤ j
    · refine ⟨j - o % N, by omega, ?_⟩
      have hval : (o + (j - o % N) + 0) % N = j := by
        rw [Nat.add_zero, Nat.add_mod]
        have hd : (j - o % N) % N = j - o % N := Nat.mod_eq_of_lt (by omega)
        rw [hd]
        have h3 : o % N + (j - o % N) = j := by omega
        rw [h3, Nat.mod_eq_of_lt hj]
      exact List.mem_map.mpr ⟨0, hmem, hval⟩
    · refine ⟨j + N - o % N, by omega, ?_⟩
      have hval : (o + (j + N - o % N) + 0) % N = j := by
        rw [Nat.add_zero, Nat.add_mod]
        have hd : (j + N - o % N) % N = j + N - o % N :=
          Nat.mod_eq_of_lt (by omega)
        rw [hd]
        have h3 : o % N + (j + N - o % N) = j + N := by omega
        rw [h3, Nat.add_mod_right, Nat.mod_eq_of_lt hj]
      exact List.mem_map.mpr ⟨0, hmem, hval⟩
  · simp only [windowIndices]
    have hfun : (fun i => (o + N + i) % N) = fun i => (o + i) % N := by
      funext i
      have h3 : o + N + i = o + i + N := by omega
      rw [h3, Nat.add_mod_right]
    rw [hfun]

/-- Witness for C4 at N = 3, K = 2, offset 5. -/
theorem rotation_window_cycles_witness :
    windowIndices (5 + 3) 3 2 = windowIndices 5 3 2 :=
  (rotation_window_cycles 5 3 2 (by decide) (by decide) (by decide)).2.2.2

/-! ## Claims C7 and C10: render totality, placeholder and isolation -/

theorem itemLines_isSome (inner : Nat) (hpos : 0 < inner) (it : FeedItem)
    (tagStr : List Char) : (itemLines inner it tagStr).isSome = true := by
  match inner, hpos with
  | n + 1, _ => simp [itemLines, chunksOf]

theorem blockGo_isSome (feed : Feed) (inner : Nat) (tagStr : List Char)
    (idxs : List Nat) (hpos : 0 < inner) :
    (blockGo feed inner tagStr idxs).isSome = true := by
  induction idxs with
  | nil => simp [blockGo]
  | cons j tl ih =>
    cases tl with
    | nil =>
      obtain ⟨ls, hls⟩ := Option.isSome_iff_exists.mp
        (itemLines_isSome inner hpos (feed.getD j ([], [], [])) tagStr)
      simp only [blockGo]
      rw [hls]
      rfl
    | cons j2 rest =>
      obtain ⟨ls, hls⟩ := Option.isSome_iff_exists.mp
        (itemLines_isSome inner hpos (feed.getD j ([], [], [])) tagStr)
      obtain ⟨items, hitems⟩ := Option.isSome_iff_exists.mp ih
      simp only [blockGo]
      rw [hls, hitems]
      rfl

/-- Claim C7: a feed category whose fetch failed (empty item sequence)
renders the non-crashing "Fetching data..." placeholder; each category's
rendering reads only its own feed slot, and a category with its own
non-empty items renders them without crashing for any positive inner
width. -/
theorem empty_feed_placeholder_isolated
    (feeds : List Feed) (off inner count : Nat) (tagInfo : Option (List Char))
    (j : Nat) (hj : feeds[j]? = some []) :
    renderBlockItems feeds off j inner count tagInfo = some [[fetchingLine]]
    ∧ (∀ i feeds2, feeds2[i]? = feeds[i]? →
        renderBlockItems feeds2 off i inner count tagInfo
          = renderBlockItems feeds off i inner count tagInfo)
    ∧ (∀ i f, feeds[i]? = some f → f ≠ [] → 0 < inner →
        (renderBlockItems feeds off i inner count tagInfo).isSome = true) := by
  refine ⟨?_, ?_, ?_⟩
  · simp [renderBlockItems, hj]
  · intro i feeds2 hi
    unfold renderBlockItems
    rw [hi]
  · intro i f hf hne hpos
    simp only [renderBlockItems, hf]
    rw [if_neg (by simpa using hne)]
    exact blockGo_isSome f inner (tagText tagInfo) _ hpos

/-- Witness for C7: slot 0 failed, slot 1 has an item; slot 0 shows the
placeholder and slot 1 renders. -/
theorem empty_feed_placeholder_isolated_witness :
    renderBlockItems [[], [(lit "t", lit "d", lit "x")]] 4 0 12 2 none
      = some [[fetchingLine]]
    ∧ (renderBlockItems [[], [(lit "t", lit "d", lit "x")]] 4 1 12 2
        none).isSome = true := by
  have h := empty_feed_placeholder_isolated [[], [(lit "t", lit "d", lit "x")]]
    4 12 2 none 0 rfl
  exact ⟨h.1, h.2.2 1 [(lit "t", lit "d", lit "x")] rfl (by decide) (by decide)⟩

/-- Counterexample to C10: with a non-empty feed and inner width 0 (a
terminal column of width at most 2) the render reaches the description
chunking with chunk size 0 — a Rust `slice::chunks(0)` panic — so
`render_rss_block` is not total. -/
theorem render_not_total_counterexample :
    renderBlockItems [[(lit "t", lit "d", lit "x")]] 0 0 0 2 none = none := by
  decide

/-- Claim C10 (amended): for any positive inner width `render_rss_block`
is total: an out-of-bounds feed index renders nothing via the checked
lookup, the modulo is taken only over a non-empty feed and every selected
item index is in bounds (the width subtractions saturate at zero by
construction); with inner width 0 and a non-empty feed, the chunk-size-0
panic of the description chunking remains. -/
theorem render_total_amended
    (feeds : List Feed) (off idx inner count : Nat)
    (tagInfo : Option (List Char)) (hpos : 0 < inner) :
    (renderBlockItems feeds off idx inner count tagInfo).isSome = true
    ∧ (feeds[idx]? = none →
        renderBlockItems feeds off idx inner count tagInfo = some [])
    ∧ (∀ f, feeds[idx]? = some f → f ≠ [] →
        ∀ j ∈ windowIndices off f.length count, j < f.length) := by
  refine ⟨?_, ?_, ?_⟩
  · unfold renderBlockItems
    cases hf : feeds[idx]? with
    | none => simp
    | some f =>
      by_cases hne : f.isEmpty
      · simp [hne]
      · simp only [hne, if_false]
        exact blockGo_isSome f inner (tagText tagInfo) _ hpos
  · intro hf
    simp [renderBlockItems, hf]
  · intro f hf hne j hjmem
    simp only [windowIndices, List.mem_map, List.mem_range] at hjmem
    obtain ⟨i, hi, hij⟩ := hjmem
    rw [← hij]
    exact Nat.mod_lt _ (List.length_pos.mpr hne)

/-- Witness for the amended C10: in-bounds, out-of-bounds and window
bounds at a concrete snapshot. -/
theorem render_total_amended_witness :
    (renderBlockItems [[(lit "t", lit "d", lit "x")]] 7 0 9 2
      (some (lit "Tag"))).isSome = true
    ∧ renderBlockItems [[(lit "t", lit "d", lit "x")]] 7 3 9 2
      (some (lit "Tag")) = some [] := by
  have h := render_total_amended [[(lit "t", lit "d", lit "x")]] 7 0 9 2
    (some (lit "Tag")) (by decide)
  have h2 := render_total_amended [[(lit "t", lit "d", lit "x")]] 7 3 9 2
    (some (lit "Tag")) (by decide)
  exact ⟨h.1, h2.2.1 rfl⟩

/-! ## Claim C8: the feed item mapping of get_feed -/

/-- Claim C8: `get_feed` reduces the raw publication date to exactly the
two tokens following the first space-delimited token, joined by a single
space; a missing title yields the sentinel "No Title" and a present title
is kept; the description is entity-decoded (external `html_escape`
collaborator `decode`) and then exactly the whitelisted paragraph,
line-break, emphasis and strong tags are stripped — line-break tags become
newline characters, the other whitelisted tags are deleted with no
replacement, and tags outside the whitelist are left untouched. -/
theorem feed_item_mapping
    (decode : List Char → List Char) (ti : Option (List Char))
    (date raw : List Char) (t0 t1 t2 : List Char) (rest : List (List Char))
    (h : splitOnChar ' ' date = t0 :: t1 :: t2 :: rest) :
    (processItem decode ti (some date) (some raw)).2.1 = t1 ++ lit " " ++ t2
    ∧ (processItem decode none (some date) (some raw)).1 = lit "No Title"
    ∧ (∀ t, (processItem decode (some t) (some date) (some raw)).1 = t)
    ∧ (processItem decode ti (some date) (some raw)).2.2
        = cleanDesc (decode raw)
    ∧ cleanDesc (lit "x<br>y") = lit "x\ny"
    ∧ cleanDesc (lit "<p>a</p><em>b</em><strong>c</strong></br>")
        = lit "abc\n"
    ∧ cleanDesc (lit "<div>keep</div>") = lit "<div>keep</div>" := by
  refine ⟨?_, rfl, fun t => rfl, rfl, by decide, by decide, by decide⟩
  show shortDate date = t1 ++ lit " " ++ t2
  unfold shortDate
  rw [h]
  rfl

/-- Witness for C8 on a real RFC-822-style date and a markup-laden
description. -/
theorem feed_item_mapping_witness :
    (processItem (fun s => s) none
      (some (lit "Mon, 13 Oct 2025 07:00:00 GMT"))
      (some (lit "<p>hello<br>world</p>"))).2.1
      = lit "13" ++ lit " " ++ lit "Oct"
    ∧ (processItem (fun s => s) none
      (some (lit "Mon, 13 Oct 2025 07:00:00 GMT"))
      (some (lit "<p>hello<br>world</p>"))).1 = lit "No Title" := by
  have h := feed_item_mapping (fun s => s) none
    (lit "Mon, 13 Oct 2025 07:00:00 GMT") (lit "<p>hello<br>world</p>")
    (lit "Mon,") (lit "13") (lit "Oct")
    [lit "2025", lit "07:00:00", lit "GMT"] (by decide)
  exact ⟨h.1, h.2.1⟩

end RssTui
